import Mathlib

/-!
Shallow embedding of `src/competition.py` (hotdog eating competition).

Numbers are modelled as rationals: the Python code converts through
`decimal.Decimal`, whose quantize step is exact decimal round-half-to-even,
so exact rational arithmetic is the faithful idealisation.  The unbounded
`while 1` loop of `Competition.run` is modelled with an explicit fuel
parameter: `runLoop` returns `none` when the loop has not finished within
`fuel` outer iterations, and `some events` when the Python loop exits.
-/

namespace Hotdog

/-- Round-half-to-even (bankers rounding) of a rational to an integer.
This is the rounding mode of `decimal.Decimal.quantize` with the default
context, used by `round_value` in competition.py lines 13-21. -/
def roundHalfEven (q : ℚ) : ℤ :=
  if q - ⌊q⌋ < 1/2 then ⌊q⌋
  else if 1/2 < q - ⌊q⌋ then ⌊q⌋ + 1
  else if Even ⌊q⌋ then ⌊q⌋ else ⌊q⌋ + 1

/-- competition.py lines 13-21: `round_value(value, precision)`.
`places` is the number of decimal digits of the `precision` argument:
the `Decimal` precision with three decimals is `places = 3`, the one with
two decimals is `places = 2`. -/
def round_value (value : ℚ) (places : ℕ) : ℚ :=
  (roundHalfEven (value * 10 ^ places) : ℚ) / 10 ^ places

/-- competition.py lines 101-110: the `Event` class. -/
structure Event where
  elapsed_time : ℚ
  name : String
  total_hot_dogs_eaten : ℚ
deriving DecidableEq, Repr

/-- competition.py lines 129-139: `Event.__lt__`: compare `elapsed_time`
first, and break ties by `name`. -/
def eventLtb (a b : Event) : Bool :=
  if a.elapsed_time = b.elapsed_time then decide (a.name < b.name)
  else decide (a.elapsed_time < b.elapsed_time)

/-- The non-strict companion of `eventLtb`; `a` may come before `b` in a
stable ascending sort exactly when `eventLtb b a = false`. -/
def eventLe (a b : Event) : Prop := eventLtb b a = false

instance : DecidableRel eventLe := fun _ _ => inferInstanceAs (Decidable (_ = false))

/-- competition.py line 86: `self.event_list.sort()`.  Python list sort is a
stable ascending sort driven by `__lt__`; any stable sort for the same total
preorder produces the same list, so we use insertion sort. -/
def sortEvents (l : List Event) : List Event :=
  List.insertionSort eventLe l

/-- competition.py lines 141-149: `Event.rounded`; the Python default
precision argument has 3 decimal places. -/
def Event.rounded (e : Event) (places : ℕ) : Event :=
  ⟨round_value e.elapsed_time places, e.name, round_value e.total_hot_dogs_eaten places⟩

/-- Transient per-competitor state of `Competition.run`:
`dur` is `durations[name]` (absent is modelled as 0, equivalent because the
first write is `durations[competitor] = current_eaten_time`), and `broken`
is `breaks[name]` (0/1 in the Python code). -/
structure CompState where
  name : String
  f : ℕ → ℚ
  dur : ℚ
  broken : Bool

/-- competition.py lines 60-81: body of the inner `for` loop of `run` for a
single competitor at outer index `cnt`.  A broken competitor is skipped.
Otherwise the whole-item event is appended unconditionally (line 68-69), and
if `diff = duration - durations[competitor] - next_eaten_time < 0` the
competitor is marked broken and the terminal boundary event is appended,
with the fractional count rounded at 2 decimal places (lines 72-81). -/
def stepComp (d : ℚ) (cnt : ℕ) (c : CompState) : CompState × List Event :=
  if c.broken then (c, [])
  else if d - (c.dur + c.f cnt) - c.f (cnt + 1) < 0 then
    ({ c with dur := c.dur + c.f cnt, broken := true },
     [⟨c.dur + c.f cnt, c.name, (cnt : ℚ) + 1⟩,
      ⟨d, c.name, round_value (((cnt : ℚ) + 1) + (d - (c.dur + c.f cnt)) / c.f (cnt + 1)) 2⟩])
  else
    ({ c with dur := c.dur + c.f cnt },
     [⟨c.dur + c.f cnt, c.name, (cnt : ℚ) + 1⟩])

/-- One outer iteration of the `while 1` loop (competition.py lines 59-81):
process every competitor in order, collecting the appended events. -/
def runRound (d : ℚ) (cnt : ℕ) : List CompState → List CompState × List Event
  | [] => ([], [])
  | c :: cs =>
    ((stepComp d cnt c).1 :: (runRound d cnt cs).1,
     (stepComp d cnt c).2 ++ (runRound d cnt cs).2)

/-- competition.py line 83: `sum(breaks.values()) == len(breaks)`, the exit
test of the `while 1` loop (each value of `breaks` is 0 or 1). -/
def allBroken (sts : List CompState) : Bool :=
  sts.all fun c => c.broken

/-- competition.py lines 56-85: the `while 1` loop.  After each round the
loop exits when every competitor is broken.  `fuel` bounds the number of
outer iterations; `none` means the Python loop would still be running after
`fuel` rounds. -/
def runLoop (d : ℚ) : ℕ → ℕ → List CompState → List Event → Option (List Event)
  | 0, _, _, _ => none
  | fuel + 1, cnt, sts, acc =>
    if allBroken (runRound d cnt sts).1 then
      some (acc ++ (runRound d cnt sts).2)
    else
      runLoop d fuel (cnt + 1) (runRound d cnt sts).1 (acc ++ (runRound d cnt sts).2)

/-- competition.py lines 30-39 and 50-55: initial per-competitor state built
in `__init__` and at the top of `run` (`breaks[competitor] = 0`). -/
def initStates (competitors : List (String × (ℕ → ℚ))) : List CompState :=
  competitors.map fun p => ⟨p.1, p.2, 0, false⟩

/-- A call of `run()` on an instance whose `event_list` currently holds `prev`
(competition.py line 39 creates the list once; `run` only appends). -/
def runAccAgain (prev : List Event) (competitors : List (String × (ℕ → ℚ)))
    (d : ℚ) (fuel : ℕ) : Option (List Event) :=
  runLoop d fuel 0 (initStates competitors) prev

/-- The unsorted `self.event_list` in emission order at line 86, for a first
call of `run()` on a fresh instance. -/
def runAcc (competitors : List (String × (ℕ → ℚ))) (d : ℚ) (fuel : ℕ) :
    Option (List Event) :=
  runAccAgain [] competitors d fuel

/-- The state of `self.event_list` after line 86 of a first `run()` call: the internal
unrounded event list, sorted. -/
def runList (competitors : List (String × (ℕ → ℚ))) (d : ℚ) (fuel : ℕ) :
    Option (List Event) :=
  (runAcc competitors d fuel).map sortEvents

/-- competition.py line 88: `map(lambda x: x.rounded(), self.event_list)`. -/
def roundedEvents (l : List Event) : List Event :=
  l.map fun e => e.rounded 3

/-- competition.py lines 88-89: the value returned by `run()`, every event
rounded to 3 decimal places. -/
def runResult (competitors : List (String × (ℕ → ℚ))) (d : ℚ) (fuel : ℕ) :
    Option (List Event) :=
  (runList competitors d fuel).map roundedEvents

/-- Accumulator of CPython `max` over `__lt__`-only objects: the running
maximum is replaced exactly when the reflected comparison
`current.__lt__(item)` holds. -/
def pyMaxAux (cur : Event) : List Event → Event
  | [] => cur
  | y :: ys => pyMaxAux (if eventLtb cur y then y else cur) ys

/-- Python `max(event_list)`; `none` models the `ValueError` raised on an
empty sequence. -/
def pyMax : List Event → Option Event
  | [] => none
  | x :: xs => some (pyMaxAux x xs)

/-- competition.py lines 91-98: `winner()` as a function of the current
`self.event_list`. -/
def winnerOf (event_list : List Event) : Option String :=
  (pyMax event_list).map Event.name

/-- The result of `winner()` invoked after a terminating first `run()` call. -/
def winnerAfter (competitors : List (String × (ℕ → ℚ))) (d : ℚ) (fuel : ℕ) :
    Option String :=
  (runList competitors d fuel).bind winnerOf

/-- The events of one competitor, in the order they occur in `l`. -/
def eventsOf (nm : String) (l : List Event) : List Event :=
  l.filter fun e => e.name == nm

/-- The events a single competitor generates on its own, starting at outer
index `cnt` with accumulated time `dur`, within `fuel` further rounds.  The
branch condition and the appended events are literally those of `stepComp`;
this is the per-competitor projection of the shared loop. -/
def compTrace (d : ℚ) (f : ℕ → ℚ) (nm : String) : ℕ → ℕ → ℚ → List Event
  | 0, _, _ => []
  | fuel + 1, cnt, dur =>
    if d - (dur + f cnt) - f (cnt + 1) < 0 then
      [⟨dur + f cnt, nm, (cnt : ℚ) + 1⟩,
       ⟨d, nm, round_value (((cnt : ℚ) + 1) + (d - (dur + f cnt)) / f (cnt + 1)) 2⟩]
    else
      ⟨dur + f cnt, nm, (cnt : ℚ) + 1⟩ :: compTrace d f nm fuel (cnt + 1) (dur + f cnt)

/-- Componentwise monotonicity between consecutive events of one
competitor: both numeric fields are non-decreasing. -/
def eventMono (a b : Event) : Prop :=
  a.elapsed_time ≤ b.elapsed_time ∧ a.total_hot_dogs_eaten ≤ b.total_hot_dogs_eaten

instance (a b : Event) : Decidable (eventMono a b) :=
  inferInstanceAs (Decidable (_ ≤ _ ∧ _ ≤ _))

/-- A constant rate function, as in the test scenarios of the spec
(for example `lambda n: 10`). -/
def constRate (q : ℚ) : ℕ → ℚ := fun _ => q

/-- A rate function taking one value on item 0 and another on every later
item, for scenarios where the two differ. -/
def dropRate (a b : ℚ) : ℕ → ℚ := fun k => if k = 0 then a else b

/-! ## Lemmas about the rounding helper -/

theorem floor_le_roundHalfEven (q : ℚ) : ⌊q⌋ ≤ roundHalfEven q := by
  unfold roundHalfEven
  split_ifs <;> omega

theorem roundHalfEven_le_floor_add_one (q : ℚ) : roundHalfEven q ≤ ⌊q⌋ + 1 := by
  unfold roundHalfEven
  split_ifs <;> omega

theorem roundHalfEven_intCast (n : ℤ) : roundHalfEven (n : ℚ) = n := by
  unfold roundHalfEven
  rw [Int.floor_intCast]
  rw [if_pos (by norm_num)]

/-- Rounding an already rounded value at the same precision is the
identity. -/
theorem round_value_idem (v : ℚ) (p : ℕ) :
    round_value (round_value v p) p = round_value v p := by
  unfold round_value
  rw [div_mul_cancel₀ _ (by positivity : (10 : ℚ) ^ p ≠ 0), roundHalfEven_intCast]

/-- The function `round_value` never drops below an integer lower bound of its input. -/
theorem le_round_value_of_le (m : ℤ) (v : ℚ) (p : ℕ) (h : (m : ℚ) ≤ v) :
    (m : ℚ) ≤ round_value v p := by
  unfold round_value
  rw [le_div_iff₀ (by positivity : (0 : ℚ) < 10 ^ p)]
  have h1 : m * 10 ^ p ≤ ⌊v * 10 ^ p⌋ := by
    rw [Int.le_floor]
    push_cast
    exact mul_le_mul_of_nonneg_right h (by positivity)
  have h2 : m * 10 ^ p ≤ roundHalfEven (v * 10 ^ p) :=
    h1.trans (floor_le_roundHalfEven _)
  exact_mod_cast h2

/-- A value in `[0, 1)` rounds into `[0, 1]`. -/
theorem round_value_mem_unit (v : ℚ) (p : ℕ) (h0 : 0 ≤ v) (h1 : v < 1) :
    0 ≤ round_value v p ∧ round_value v p ≤ 1 := by
  constructor
  · exact_mod_cast le_round_value_of_le 0 v p (by exact_mod_cast h0)
  · unfold round_value
    rw [div_le_one (by positivity : (0 : ℚ) < 10 ^ p)]
    have hf : ⌊v * 10 ^ p⌋ < 10 ^ p := by
      rw [Int.floor_lt]
      push_cast
      have := mul_lt_mul_of_pos_right h1 (by positivity : (0 : ℚ) < 10 ^ p)
      linarith
    have h2 : roundHalfEven (v * 10 ^ p) ≤ 10 ^ p := by
      have := roundHalfEven_le_floor_add_one (v * 10 ^ p)
      omega
    exact_mod_cast h2

/-! ## The Event strict order -/

theorem eventLtb_iff (a b : Event) :
    eventLtb a b = true ↔
      a.elapsed_time < b.elapsed_time ∨
        (a.elapsed_time = b.elapsed_time ∧ a.name < b.name) := by
  unfold eventLtb
  split_ifs with h
  · simp [h]
  · simp [h]

theorem eventLtb_eq_false_iff (a b : Event) :
    eventLtb a b = false ↔
      b.elapsed_time < a.elapsed_time ∨
        (b.elapsed_time = a.elapsed_time ∧ b.name ≤ a.name) := by
  unfold eventLtb
  split_ifs with h
  · simp [h, not_lt]
  · constructor
    · intro hb
      simp only [decide_eq_false_iff_not, not_lt] at hb
      exact Or.inl (lt_of_le_of_ne hb (fun hh => h hh.symm))
    · intro hb
      simp only [decide_eq_false_iff_not, not_lt]
      rcases hb with hb | ⟨hb, _⟩
      · exact le_of_lt hb
      · exact absurd hb.symm h

theorem eventLtb_irrefl (a : Event) : eventLtb a a = false := by
  rw [eventLtb_eq_false_iff]
  exact Or.inr ⟨rfl, le_refl _⟩

theorem eventLtb_asymm {a b : Event} (h : eventLtb a b = true) :
    eventLtb b a = false := by
  rw [eventLtb_iff] at h
  rw [eventLtb_eq_false_iff]
  rcases h with h | ⟨he, hn⟩
  · exact Or.inl h
  · exact Or.inr ⟨he, le_of_lt hn⟩

/-- Transitivity of the complement: if `a` is at most `b` and `b` is at most
`c` in the event order, then `a` is at most `c`. -/
theorem eventLtb_false_trans {a b c : Event}
    (h1 : eventLtb b a = false) (h2 : eventLtb c b = false) :
    eventLtb c a = false := by
  rw [eventLtb_eq_false_iff] at h1 h2 ⊢
  rcases h1 with h1 | ⟨h1e, h1n⟩ <;> rcases h2 with h2 | ⟨h2e, h2n⟩
  · exact Or.inl (h1.trans h2)
  · exact Or.inl (lt_of_lt_of_eq h1 h2e)
  · exact Or.inl (lt_of_eq_of_lt h1e h2)
  · exact Or.inr ⟨h1e.trans h2e, h1n.trans h2n⟩

/-! ## Python max over the event order -/

theorem pyMaxAux_mem (cur : Event) (l : List Event) : pyMaxAux cur l ∈ cur :: l := by
  induction l generalizing cur with
  | nil => simp [pyMaxAux]
  | cons y ys ih =>
    rw [pyMaxAux]
    rcases List.mem_cons.mp (ih (if eventLtb cur y then y else cur)) with h | h
    · rw [h]
      split
      · exact List.mem_cons_of_mem _ (List.mem_cons_self _ _)
      · exact List.mem_cons_self _ _
    · exact List.mem_cons_of_mem _ (List.mem_cons_of_mem _ h)

theorem pyMaxAux_not_lt (cur : Event) (l : List Event) :
    ∀ x ∈ cur :: l, eventLtb (pyMaxAux cur l) x = false := by
  induction l generalizing cur with
  | nil =>
    intro x hx
    rw [List.mem_singleton] at hx
    rw [hx, pyMaxAux]
    exact eventLtb_irrefl _
  | cons y ys ih =>
    intro x hx
    rw [pyMaxAux]
    by_cases h : eventLtb cur y = true
    · rw [if_pos h]
      rcases List.mem_cons.mp hx with rfl | hx2
      · have hy : eventLtb (pyMaxAux y ys) y = false :=
          ih y y (List.mem_cons_self _ _)
        exact eventLtb_false_trans (eventLtb_asymm h) hy
      · exact ih y x hx2
    · have hfalse : eventLtb cur y = false := by
        rwa [Bool.not_eq_true] at h
      rw [if_neg h]
      rcases List.mem_cons.mp hx with rfl | hx2
      · exact ih _ _ (List.mem_cons_self _ _)
      · rcases List.mem_cons.mp hx2 with rfl | hx3
        · exact eventLtb_false_trans hfalse (ih _ _ (List.mem_cons_self _ _))
        · exact ih _ _ (List.mem_cons_of_mem _ hx3)

theorem pyMax_spec {l : List Event} {m : Event} (h : pyMax l = some m) :
    m ∈ l ∧ ∀ x ∈ l, eventLtb m x = false := by
  cases l with
  | nil => simp [pyMax] at h
  | cons x xs =>
    rw [pyMax, Option.some_inj] at h
    rw [← h]
    exact ⟨pyMaxAux_mem x xs, pyMaxAux_not_lt x xs⟩

theorem pyMax_isSome {l : List Event} (h : l ≠ []) : ∃ m, pyMax l = some m := by
  cases l with
  | nil => exact absurd rfl h
  | cons x xs => exact ⟨pyMaxAux x xs, rfl⟩

/-! ## Basic facts about the loop body -/

theorem stepComp_broken (d : ℚ) (cnt : ℕ) (c : CompState) (h : c.broken = true) :
    stepComp d cnt c = (c, []) := by
  unfold stepComp
  rw [if_pos h]

theorem stepComp_stop (d : ℚ) (cnt : ℕ) (c : CompState) (h : c.broken = false)
    (hlt : d - (c.dur + c.f cnt) - c.f (cnt + 1) < 0) :
    stepComp d cnt c =
      ({ c with dur := c.dur + c.f cnt, broken := true },
       [⟨c.dur + c.f cnt, c.name, (cnt : ℚ) + 1⟩,
        ⟨d, c.name,
         round_value (((cnt : ℚ) + 1) + (d - (c.dur + c.f cnt)) / c.f (cnt + 1)) 2⟩]) := by
  unfold stepComp
  rw [if_neg (by simp [h]), if_pos hlt]

theorem stepComp_cont (d : ℚ) (cnt : ℕ) (c : CompState) (h : c.broken = false)
    (hge : ¬ d - (c.dur + c.f cnt) - c.f (cnt + 1) < 0) :
    stepComp d cnt c =
      ({ c with dur := c.dur + c.f cnt },
       [⟨c.dur + c.f cnt, c.name, (cnt : ℚ) + 1⟩]) := by
  unfold stepComp
  rw [if_neg (by simp [h]), if_neg hge]

theorem stepComp_fst_name (d : ℚ) (cnt : ℕ) (c : CompState) :
    ((stepComp d cnt c).1).name = c.name := by
  unfold stepComp
  split_ifs <;> rfl

theorem stepComp_fst_f (d : ℚ) (cnt : ℕ) (c : CompState) :
    ((stepComp d cnt c).1).f = c.f := by
  unfold stepComp
  split_ifs <;> rfl

theorem stepComp_snd_name (d : ℚ) (cnt : ℕ) (c : CompState) :
    ∀ e ∈ (stepComp d cnt c).2, e.name = c.name := by
  unfold stepComp
  split_ifs <;> intro e he <;> simp at he
  · rcases he with rfl | rfl <;> rfl
  · rw [he]

theorem runRound_fst (d : ℚ) (cnt : ℕ) :
    ∀ sts : List CompState,
      (runRound d cnt sts).1 = sts.map fun c => (stepComp d cnt c).1 := by
  intro sts
  induction sts with
  | nil => rfl
  | cons c cs ih => rw [runRound, ih, List.map_cons]

theorem runRound_fst_names (d : ℚ) (cnt : ℕ) (sts : List CompState) :
    (runRound d cnt sts).1.map CompState.name = sts.map CompState.name := by
  rw [runRound_fst, List.map_map]
  exact List.map_congr_left fun c _ => stepComp_fst_name d cnt c

theorem runRound_snd_names (d : ℚ) (cnt : ℕ) :
    ∀ sts : List CompState, ∀ e ∈ (runRound d cnt sts).2,
      e.name ∈ sts.map CompState.name := by
  intro sts
  induction sts with
  | nil => intro e he; simp [runRound] at he
  | cons c cs ih =>
    intro e he
    rw [runRound] at he
    rcases List.mem_append.mp he with h | h
    · rw [List.map_cons]
      exact (stepComp_snd_name d cnt c e h) ▸ List.mem_cons_self _ _
    · rw [List.map_cons]
      exact List.mem_cons_of_mem _ (ih e h)

theorem runRound_mem_fst (d : ℚ) (cnt : ℕ) {sts : List CompState} {c : CompState}
    (hc : c ∈ sts) : (stepComp d cnt c).1 ∈ (runRound d cnt sts).1 := by
  rw [runRound_fst]
  exact List.mem_map_of_mem _ hc

/-- With distinct competitor names, filtering one round's emissions by a
competitor name yields exactly the events of the step of that competitor. -/
theorem runRound_filter (d : ℚ) (cnt : ℕ) :
    ∀ (sts : List CompState) (c : CompState), (sts.map CompState.name).Nodup →
      c ∈ sts →
      ((runRound d cnt sts).2.filter fun e => e.name == c.name) =
        (stepComp d cnt c).2 := by
  intro sts
  induction sts with
  | nil => intro c _ hc; simp at hc
  | cons x xs ih =>
    intro c hnd hc
    rw [runRound]
    simp only [List.filter_append]
    rw [List.map_cons, List.nodup_cons] at hnd
    rcases List.mem_cons.mp hc with rfl | hmem
    · have h1 : ((stepComp d cnt c).2.filter fun e => e.name == c.name) =
          (stepComp d cnt c).2 := by
        rw [List.filter_eq_self]
        intro e he
        rw [stepComp_snd_name d cnt c e he]
        exact beq_self_eq_true _
      have h2 : ((runRound d cnt xs).2.filter fun e => e.name == c.name) = [] := by
        rw [List.filter_eq_nil_iff]
        intro e he
        have hn := runRound_snd_names d cnt xs e he
        simp only [beq_iff_eq]
        intro heq
        rw [heq] at hn
        exact hnd.1 hn
      rw [h1, h2, List.append_nil]
    · have hx : x.name ≠ c.name := by
        intro he
        exact hnd.1 (he ▸ List.mem_map_of_mem _ hmem)
      have h1 : ((stepComp d cnt x).2.filter fun e => e.name == c.name) = [] := by
        rw [List.filter_eq_nil_iff]
        intro e he
        simp only [beq_iff_eq]
        rw [stepComp_snd_name d cnt x e he]
        exact hx
      rw [h1, List.nil_append]
      exact ih c hnd.2 hmem

/-- The accumulator of `runLoop` is never read, only appended to. -/
theorem runLoop_acc (d : ℚ) :
    ∀ (fuel cnt : ℕ) (sts : List CompState) (acc : List Event),
      runLoop d fuel cnt sts acc =
        (runLoop d fuel cnt sts []).map fun l => acc ++ l := by
  intro fuel
  induction fuel with
  | zero => intro cnt sts acc; rfl
  | succ n ih =>
    intro cnt sts acc
    rw [runLoop, runLoop]
    by_cases hall : allBroken (runRound d cnt sts).1 = true
    · rw [if_pos hall, if_pos hall]
      simp
    · rw [if_neg hall, if_neg hall]
      rw [ih (cnt + 1) (runRound d cnt sts).1 (acc ++ (runRound d cnt sts).2),
        ih (cnt + 1) (runRound d cnt sts).1 ([] ++ (runRound d cnt sts).2)]
      cases runLoop d n (cnt + 1) (runRound d cnt sts).1 [] <;>
        simp [List.append_assoc]

/-- Every event the loop emits carries the name of some competitor. -/
theorem runLoop_names (d : ℚ) :
    ∀ (fuel cnt : ℕ) (sts : List CompState) (acc out : List Event),
      runLoop d fuel cnt sts acc = some out →
      ∀ e ∈ out, e ∈ acc ∨ e.name ∈ sts.map CompState.name := by
  intro fuel
  induction fuel with
  | zero => intro cnt sts acc out h; simp [runLoop] at h
  | succ n ih =>
    intro cnt sts acc out hrun e he
    rw [runLoop] at hrun
    split at hrun
    · rw [Option.some_inj] at hrun
      rw [← hrun] at he
      rcases List.mem_append.mp he with h | h
      · exact Or.inl h
      · exact Or.inr (runRound_snd_names d cnt sts e h)
    · rcases ih (cnt + 1) (runRound d cnt sts).1 (acc ++ (runRound d cnt sts).2)
          out hrun e he with h | h
      · rcases List.mem_append.mp h with h2 | h2
        · exact Or.inl h2
        · exact Or.inr (runRound_snd_names d cnt sts e h2)
      · rw [runRound_fst_names] at h
        exact Or.inr h

/-! ## Per-competitor trace lemmas -/

theorem compTrace_name (d : ℚ) (f : ℕ → ℚ) (nm : String) :
    ∀ (fuel cnt : ℕ) (dur : ℚ), ∀ e ∈ compTrace d f nm fuel cnt dur,
      e.name = nm := by
  intro fuel
  induction fuel with
  | zero => intro cnt dur e he; simp [compTrace] at he
  | succ n ih =>
    intro cnt dur e he
    rw [compTrace] at he
    split at he
    · simp at he
      rcases he with rfl | rfl <;> rfl
    · rcases List.mem_cons.mp he with rfl | h2
      · rfl
      · exact ih _ _ e h2

/-- Entering a round with the guarantee that the current item still fits,
every event of the remaining trace happens no later than the competition
duration. -/
theorem compTrace_elapsed_le (d : ℚ) (f : ℕ → ℚ) (nm : String) :
    ∀ (fuel cnt : ℕ) (dur : ℚ), dur + f cnt ≤ d →
      ∀ e ∈ compTrace d f nm fuel cnt dur, e.elapsed_time ≤ d := by
  intro fuel
  induction fuel with
  | zero => intro cnt dur _ e he; simp [compTrace] at he
  | succ n ih =>
    intro cnt dur hle e he
    rw [compTrace] at he
    split at he
    · simp at he
      rcases he with rfl | rfl
      · exact hle
      · exact le_refl _
    · rcases List.mem_cons.mp he with rfl | h2
      · exact hle
      · next hc => exact ih (cnt + 1) (dur + f cnt) (by linarith [not_lt.mp hc]) e h2

/-- Only the very first emitted event of a competitor can exceed the
duration: everything after the head is at or before `d`. -/
theorem compTrace_tail_le (d : ℚ) (f : ℕ → ℚ) (nm : String)
    (fuel cnt : ℕ) (dur : ℚ) :
    ∀ e ∈ (compTrace d f nm fuel cnt dur).tail, e.elapsed_time ≤ d := by
  cases fuel with
  | zero => intro e he; simp [compTrace] at he
  | succ n =>
    rw [compTrace]
    split
    · intro e he
      simp at he
      rw [he]
    · next hc =>
      intro e he
      simp only [List.tail_cons] at he
      exact compTrace_elapsed_le d f nm n (cnt + 1) (dur + f cnt)
        (by linarith [not_lt.mp hc]) e he

theorem compTrace_head (d : ℚ) (f : ℕ → ℚ) (nm : String) (fuel cnt : ℕ) (dur : ℚ) :
    ∀ y ∈ (compTrace d f nm (fuel + 1) cnt dur).head?,
      y = ⟨dur + f cnt, nm, (cnt : ℚ) + 1⟩ := by
  rw [compTrace]
  split <;> intro y hy <;> simp at hy <;> exact hy.symm

/-- Within the trace of one competitor, elapsed time and the consumed count are
both non-decreasing, provided every item takes positive time and the
entering item still fits in the duration. -/
theorem compTrace_chain (d : ℚ) (f : ℕ → ℚ) (nm : String) (hpos : ∀ k, 0 < f k) :
    ∀ (fuel cnt : ℕ) (dur : ℚ), dur + f cnt ≤ d →
      List.Chain' eventMono (compTrace d f nm fuel cnt dur) := by
  intro fuel
  induction fuel with
  | zero => intro cnt dur _; simp [compTrace]
  | succ n ih =>
    intro cnt dur hle
    rw [compTrace]
    split
    · next hc =>
      refine List.chain'_cons.mpr ⟨⟨hle, ?_⟩, List.chain'_singleton _⟩
      have hnum : ((cnt : ℚ) + 1) ≤ ((cnt : ℚ) + 1) + (d - (dur + f cnt)) / f (cnt + 1) := by
        have : 0 ≤ (d - (dur + f cnt)) / f (cnt + 1) :=
          div_nonneg (by linarith) (le_of_lt (hpos (cnt + 1)))
        linarith
      have := le_round_value_of_le ((cnt : ℤ) + 1)
        (((cnt : ℚ) + 1) + (d - (dur + f cnt)) / f (cnt + 1)) 2 (by push_cast; exact hnum)
      push_cast at this
      exact this
    · next hc =>
      have hle2 : (dur + f cnt) + f (cnt + 1) ≤ d := by linarith [not_lt.mp hc]
      refine List.chain'_cons'.mpr ⟨?_, ih (cnt + 1) (dur + f cnt) hle2⟩
      intro y hy
      cases n with
      | zero => simp [compTrace] at hy
      | succ m =>
        rw [compTrace_head d f nm m (cnt + 1) (dur + f cnt) y hy]
        refine ⟨?_, ?_⟩
        · show dur + f cnt ≤ dur + f cnt + f (cnt + 1)
          linarith [hpos (cnt + 1)]
        · show (cnt : ℚ) + 1 ≤ ((cnt + 1 : ℕ) : ℚ) + 1
          push_cast
          linarith

/-! ## The main correspondence between the shared loop and per-competitor
traces -/

/-- If the loop terminates, the events of each competitor (with distinct
names) are exactly its own trace, appended after whatever that competitor
already had in the accumulator; moreover each still-active competitor has a
trace that ends with an event at `elapsed_time = d` (its terminal boundary
event). -/
theorem runLoop_filter_trace (d : ℚ) :
    ∀ (fuel cnt : ℕ) (sts : List CompState) (acc out : List Event),
      (sts.map CompState.name).Nodup →
      runLoop d fuel cnt sts acc = some out →
      ∀ c ∈ sts,
        ((out.filter fun e => e.name == c.name) =
            (acc.filter fun e => e.name == c.name) ++
              (if c.broken then [] else compTrace d c.f c.name fuel cnt c.dur)) ∧
          (c.broken = false →
            ∃ last, (compTrace d c.f c.name fuel cnt c.dur).getLast? = some last ∧
              last.elapsed_time = d) := by
  intro fuel
  induction fuel with
  | zero => intro cnt sts acc out _ h; simp [runLoop] at h
  | succ n ih =>
    intro cnt sts acc out hnd hrun c hc
    rw [runLoop] at hrun
    split at hrun
    · -- every competitor is broken after this round: the loop exits
      next hall =>
      rw [Option.some_inj] at hrun
      rw [← hrun, List.filter_append, runRound_filter d cnt sts c hnd hc]
      cases hbr : c.broken with
      | true =>
        rw [stepComp_broken d cnt c hbr]
        exact ⟨by simp, fun h => Bool.noConfusion h⟩
      | false =>
        have hbroke : ((stepComp d cnt c).1).broken = true := by
          simp only [allBroken, List.all_eq_true] at hall
          exact hall _ (runRound_mem_fst d cnt hc)
        by_cases hlt : d - (c.dur + c.f cnt) - c.f (cnt + 1) < 0
        · refine ⟨?_, fun _ => ?_⟩
          · rw [stepComp_stop d cnt c hbr hlt, if_neg (by decide : ¬ false = true),
              compTrace, if_pos hlt]
          · rw [compTrace, if_pos hlt]
            exact ⟨⟨d, c.name,
              round_value (((cnt : ℚ) + 1) + (d - (c.dur + c.f cnt)) / c.f (cnt + 1)) 2⟩,
              by simp, rfl⟩
        · rw [stepComp_cont d cnt c hbr hlt] at hbroke
          exact absurd hbroke (by simp [hbr])
    · -- at least one competitor is still active: recurse
      next hall =>
      have hnd2 : ((runRound d cnt sts).1.map CompState.name).Nodup := by
        rw [runRound_fst_names]; exact hnd
      have hmem2 : (stepComp d cnt c).1 ∈ (runRound d cnt sts).1 :=
        runRound_mem_fst d cnt hc
      have hih := ih (cnt + 1) (runRound d cnt sts).1
        (acc ++ (runRound d cnt sts).2) out hnd2 hrun (stepComp d cnt c).1 hmem2
      rw [stepComp_fst_name, stepComp_fst_f] at hih
      cases hbr : c.broken with
      | true =>
        rw [stepComp_broken d cnt c hbr] at hih
        rcases hih with ⟨hfil, _⟩
        rw [List.filter_append, runRound_filter d cnt sts c hnd hc,
          stepComp_broken d cnt c hbr] at hfil
        refine ⟨?_, fun h => Bool.noConfusion h⟩
        simp only [hbr, if_pos rfl, List.filter_nil, List.append_nil] at hfil ⊢
        simpa using hfil
      | false =>
        by_cases hlt : d - (c.dur + c.f cnt) - c.f (cnt + 1) < 0
        · rw [stepComp_stop d cnt c hbr hlt] at hih
          rcases hih with ⟨hfil, _⟩
          rw [List.filter_append, runRound_filter d cnt sts c hnd hc,
            stepComp_stop d cnt c hbr hlt] at hfil
          refine ⟨?_, fun _ => ?_⟩
          · rw [if_neg (by decide : ¬ false = true), compTrace, if_pos hlt]
            simp only [if_pos rfl, List.append_nil] at hfil
            simpa using hfil
          · rw [compTrace, if_pos hlt]
            exact ⟨⟨d, c.name,
              round_value (((cnt : ℚ) + 1) + (d - (c.dur + c.f cnt)) / c.f (cnt + 1)) 2⟩,
              by simp, rfl⟩
        · rw [stepComp_cont d cnt c hbr hlt] at hih
          rcases hih with ⟨hfil, hclosed⟩
          rw [List.filter_append, runRound_filter d cnt sts c hnd hc,
            stepComp_cont d cnt c hbr hlt] at hfil
          rcases hclosed hbr with ⟨last, hlast, helapsed⟩
          have hlast2 : (compTrace d c.f c.name n (cnt + 1) (c.dur + c.f cnt)).getLast? =
              some last := hlast
          refine ⟨?_, fun _ => ?_⟩
          · rw [if_neg (by decide : ¬ false = true), compTrace, if_neg hlt]
            simp only [hbr, if_neg (by decide : ¬ false = true)] at hfil
            simpa using hfil
          · rw [compTrace, if_neg hlt]
            refine ⟨last, ?_, helapsed⟩
            rcases hrest : compTrace d c.f c.name n (cnt + 1) (c.dur + c.f cnt) with
              _ | ⟨b, bs⟩
            · rw [hrest] at hlast2
              simp at hlast2
            · rw [List.getLast?_cons_cons]
              rw [hrest] at hlast2
              exact hlast2

/-! ## Specializations at the initial state -/

theorem initStates_names (comps : List (String × (ℕ → ℚ))) :
    (initStates comps).map CompState.name = comps.map Prod.fst := by
  rw [initStates, List.map_map]
  rfl

theorem initStates_mem {comps : List (String × (ℕ → ℚ))} {nm : String} {f : ℕ → ℚ}
    (h : (nm, f) ∈ comps) : (⟨nm, f, 0, false⟩ : CompState) ∈ initStates comps :=
  List.mem_map_of_mem _ h

theorem sortEvents_perm (l : List Event) : (sortEvents l).Perm l :=
  List.perm_insertionSort eventLe l

/-- For a competitor of a terminating run (with distinct names), the events
of that competitor in emission order are exactly its own trace from item 0,
and that trace ends with an event at `elapsed_time = d`. -/
theorem runAcc_eventsOf (comps : List (String × (ℕ → ℚ))) (d : ℚ) (fuel : ℕ)
    (nm : String) (f : ℕ → ℚ) (out : List Event)
    (hnd : (comps.map Prod.fst).Nodup) (hmem : (nm, f) ∈ comps)
    (hrun : runAcc comps d fuel = some out) :
    eventsOf nm out = compTrace d f nm fuel 0 0 ∧
      ∃ last, (compTrace d f nm fuel 0 0).getLast? = some last ∧
        last.elapsed_time = d := by
  have hnd2 : ((initStates comps).map CompState.name).Nodup := by
    rw [initStates_names]
    exact hnd
  have h := runLoop_filter_trace d fuel 0 (initStates comps) [] out hnd2 hrun
    ⟨nm, f, 0, false⟩ (initStates_mem hmem)
  rcases h with ⟨hfil, hclosed⟩
  refine ⟨?_, hclosed rfl⟩
  rw [eventsOf]
  simpa using hfil

/-- A single competitor that stops in round zero ends the whole loop in one
round. -/
theorem runLoop_single_stop (d : ℚ) (n : ℕ) (c0 : CompState) (h : c0.broken = false)
    (hlt : d - (c0.dur + c0.f 0) - c0.f 1 < 0) :
    runLoop d (n + 1) 0 [c0] [] = some (stepComp d 0 c0).2 := by
  rw [runLoop]
  have hrr : runRound d 0 [c0] = ([(stepComp d 0 c0).1], (stepComp d 0 c0).2) := by
    rw [runRound, runRound]
    simp
  rw [hrr]
  have hb : allBroken [(stepComp d 0 c0).1] = true := by
    rw [stepComp_stop d 0 c0 h hlt]
    rfl
  rw [if_pos hb]
  simp

/-! ## The claims -/

/-- C3: for every active competitor at outer index `cnt`, the loop body
marks the competitor finished and emits a terminal boundary event if and
only if `duration - cumulative_elapsed_time - next_item_time` is strictly
negative (equality does not stop the competitor); the terminal event has
`elapsed_time = duration` and count `(cnt + 1) + remaining / next_item_time`
rounded at 2 decimal places before being stored (the final output rounding
at 3 decimal places is applied separately, by `roundedEvents`). -/
theorem claim_C3_boundary_iff (d : ℚ) (cnt : ℕ) (c : CompState)
    (h : c.broken = false) :
    (((stepComp d cnt c).1).broken = true ↔
        d - (c.dur + c.f cnt) - c.f (cnt + 1) < 0) ∧
      (((stepComp d cnt c).1).broken = true →
        (stepComp d cnt c).2 =
          [⟨c.dur + c.f cnt, c.name, (cnt : ℚ) + 1⟩,
           ⟨d, c.name,
            round_value (((cnt : ℚ) + 1) + (d - (c.dur + c.f cnt)) / c.f (cnt + 1)) 2⟩]) ∧
      (((stepComp d cnt c).1).broken = false →
        (stepComp d cnt c).2 = [⟨c.dur + c.f cnt, c.name, (cnt : ℚ) + 1⟩]) := by
  by_cases hlt : d - (c.dur + c.f cnt) - c.f (cnt + 1) < 0
  · rw [stepComp_stop d cnt c h hlt]
    exact ⟨⟨fun _ => hlt, fun _ => rfl⟩, fun _ => rfl, fun hcon => Bool.noConfusion hcon⟩
  · rw [stepComp_cont d cnt c h hlt]
    have hfalse : ¬ c.broken = true := by
      rw [h]
      exact Bool.false_ne_true
    exact ⟨⟨fun hcon => absurd (show c.broken = true from hcon) hfalse,
        fun hcon => absurd hcon hlt⟩,
      fun hcon => absurd (show c.broken = true from hcon) hfalse,
      fun _ => rfl⟩

/-- Witness for C3 at a concrete input: a competitor whose next item does
not fit is stopped and both the whole-item and the terminal events are
emitted. -/
theorem claim_C3_boundary_iff_witness :
    ((stepComp 5 0 ⟨"A", constRate 10, 0, false⟩).1).broken = true ∧
      (stepComp 5 0 ⟨"A", constRate 10, 0, false⟩).2 =
        [⟨10, "A", 1⟩, ⟨5, "A", 1/2⟩] := by
  have h := claim_C3_boundary_iff 5 0 ⟨"A", constRate 10, 0, false⟩ rfl
  have hb : ((stepComp 5 0 ⟨"A", constRate 10, 0, false⟩).1).broken = true :=
    h.1.mpr (by norm_num [constRate])
  refine ⟨hb, ?_⟩
  rw [h.2.1 hb]
  with_unfolding_all decide

/-- C6: with an empty competitor mapping, `run()` terminates at once with an
empty event list, and `winner()` on an empty internal event list (after such
a run, or before any run) yields no name: the Python `max` of an empty
sequence fails, modelled by `none`. -/
theorem claim_C6_empty_run (d : ℚ) (fuel : ℕ) (hfuel : 1 ≤ fuel) :
    runAcc [] d fuel = some [] ∧ runList [] d fuel = some [] ∧
      runResult [] d fuel = some [] ∧ winnerAfter [] d fuel = none ∧
      winnerOf [] = none := by
  obtain ⟨n, rfl⟩ : ∃ n, fuel = n + 1 := ⟨fuel - 1, by omega⟩
  have h : runAcc [] d (n + 1) = some [] := by
    rw [runAcc, runAccAgain, runLoop]
    rw [if_pos (by rfl : allBroken (runRound d 0 (initStates [])).1 = true)]
    rfl
  refine ⟨h, ?_, ?_, ?_, rfl⟩
  · rw [runList, h]
    rfl
  · rw [runResult, runList, h]
    rfl
  · rw [winnerAfter, runList, h]
    rfl

/-- Witness for C6 at duration 7 with fuel 1. -/
theorem claim_C6_empty_run_witness :
    runAcc [] 7 1 = some [] ∧ runList [] 7 1 = some [] ∧
      runResult [] 7 1 = some [] ∧ winnerAfter [] 7 1 = none ∧
      winnerOf [] = none :=
  claim_C6_empty_run 7 1 (by norm_num)

/-- C7: with zero or negative duration and strictly positive item times,
every competitor is marked broken in the very first outer iteration, so the
loop terminates (one round of fuel suffices). -/
theorem claim_C7_nonpositive_duration (comps : List (String × (ℕ → ℚ))) (d : ℚ)
    (fuel : ℕ) (hd : d ≤ 0) (hpos : ∀ p ∈ comps, ∀ k, 0 < p.2 k)
    (hfuel : 1 ≤ fuel) :
    allBroken (runRound d 0 (initStates comps)).1 = true ∧
      (runAcc comps d fuel).isSome = true := by
  have hall : allBroken (runRound d 0 (initStates comps)).1 = true := by
    rw [allBroken, List.all_eq_true]
    rw [runRound_fst]
    intro c hc
    rcases List.mem_map.mp hc with ⟨c0, hc0, rfl⟩
    rcases List.mem_map.mp hc0 with ⟨p, hp, rfl⟩
    have h0 := hpos p hp 0
    have h1 := hpos p hp 1
    rw [stepComp_stop d 0 ⟨p.1, p.2, 0, false⟩ rfl
      (show d - ((0 : ℚ) + p.2 0) - p.2 1 < 0 by linarith)]
  refine ⟨hall, ?_⟩
  obtain ⟨n, rfl⟩ : ∃ n, fuel = n + 1 := ⟨fuel - 1, by omega⟩
  rw [runAcc, runAccAgain, runLoop, if_pos hall]
  rfl

/-- Witness for C7: one competitor with constant item time 1 and duration
0. -/
theorem claim_C7_nonpositive_duration_witness :
    allBroken (runRound 0 0 (initStates [("A", constRate 1)])).1 = true ∧
      (runAcc [("A", constRate 1)] 0 1).isSome = true :=
  claim_C7_nonpositive_duration [("A", constRate 1)] 0 1 (by norm_num)
    (by
      intro p hp k
      rcases List.mem_singleton.mp hp with rfl
      norm_num [constRate])
    (by norm_num)

set_option maxRecDepth 20000 in
/-- C8: the rounding transform keeps the name, is idempotent at the same
precision, and rounds half-to-even on the decimal representation (ties at
the third decimal go to the even neighbour). -/
theorem claim_C8_rounded_transform (e : Event) :
    (e.rounded 3).name = e.name ∧ (e.rounded 3).rounded 3 = e.rounded 3 ∧
      round_value (1/2000) 3 = 0 ∧ round_value (3/2000) 3 = 1/500 := by
  refine ⟨rfl, ?_, by with_unfolding_all decide, by with_unfolding_all decide⟩
  show Event.rounded (Event.rounded e 3) 3 = Event.rounded e 3
  unfold Event.rounded
  rw [round_value_idem, round_value_idem]

set_option maxRecDepth 40000 in
/-- Counterexample to C2 as stated, in both of its parts.  For a competitor
with constant item time 10 and duration 5, `run()` emits two events, not
one: the whole-item event at elapsed time 10 is appended before the
finished check, in addition to the terminal boundary event, and the
returned sequence has both.  And the terminal count need not lie between 0
and 1: with item time 10 on item 0 but 1 afterwards and duration 5, the
terminal event stores `round2(1 + (5 - 10)/1) = -4`. -/
theorem claim_C2_counterexample :
    runAcc [("A", constRate 10)] 5 1 = some [⟨10, "A", 1⟩, ⟨5, "A", 1/2⟩] ∧
      runResult [("A", constRate 10)] 5 1 =
        some [⟨5, "A", 1/2⟩, ⟨10, "A", 1⟩] ∧
      runAcc [("A", dropRate 10 1)] 5 1 = some [⟨10, "A", 1⟩, ⟨5, "A", -4⟩] ∧
      ¬ (0 : ℚ) ≤ -4 := by
  with_unfolding_all decide

/-- C2, amended: for every competitor (in any competition with distinct
names and strictly positive item times) whose very first item time exceeds
the duration, a terminating `run()` emits exactly two events for that
competitor: the whole-item event `(f 0, name, 1)`, whose elapsed time
exceeds the duration, and the terminal boundary event at
`elapsed_time = duration` whose count is the 2-decimal rounding of
`1 + (duration - f 0) / f 1` (a value that need not lie between 0 and 1). -/
theorem claim_C2_amended (comps : List (String × (ℕ → ℚ))) (d : ℚ) (fuel : ℕ)
    (nm : String) (f : ℕ → ℚ) (out : List Event)
    (hnd : (comps.map Prod.fst).Nodup) (hmem : (nm, f) ∈ comps)
    (hpos : ∀ k, 0 < f k) (hf0 : d < f 0)
    (hrun : runAcc comps d fuel = some out) :
    eventsOf nm out =
      [⟨f 0, nm, 1⟩, ⟨d, nm, round_value (1 + (d - f 0) / f 1) 2⟩] := by
  rcases runAcc_eventsOf comps d fuel nm f out hnd hmem hrun with ⟨hfil, last, hlast, _⟩
  rw [hfil]
  cases fuel with
  | zero =>
    exact absurd hlast (by simp [compTrace])
  | succ k =>
    have hlt : d - ((0 : ℚ) + f 0) - f 1 < 0 := by
      have := hpos 1
      linarith
    rw [compTrace, if_pos hlt]
    norm_num

/-- Witness for the amended C2 at the concrete input of the claim:
`f(n) = 10`, duration 5. -/
theorem claim_C2_amended_witness :
    eventsOf "A" [⟨10, "A", 1⟩, ⟨5, "A", 1/2⟩] =
      [⟨constRate 10 0, "A", 1⟩,
       ⟨5, "A", round_value (1 + (5 - constRate 10 0) / constRate 10 1) 2⟩] :=
  claim_C2_amended [("A", constRate 10)] 5 1 "A" (constRate 10)
    [⟨10, "A", 1⟩, ⟨5, "A", 1/2⟩]
    (by with_unfolding_all decide) (List.mem_singleton.mpr rfl)
    (fun k => by norm_num [constRate]) (by norm_num [constRate])
    (by with_unfolding_all decide)

set_option maxRecDepth 80000 in
set_option maxHeartbeats 800000 in
/-- C4 fails on the code (code bug): the code sorts the internal event list
before rounding, and the 3-decimal rounding can merge distinct elapsed
times, leaving the returned sequence unsorted.  With competitors B (constant
item time 1.0001) and A (constant 1.0002) and duration 1, the returned
sequence ends with the pair `(1.0, B, 1.0), (1.0, A, 1.0)`, whose
`(elapsed_time, name)` keys are strictly descending, contradicting both the
claim and the docstring of `run()`. -/
theorem claim_C4_returned_list_not_sorted :
    runResult [("B", constRate (10001/10000)), ("A", constRate (10002/10000))] 1 1 =
        some [⟨1, "A", 1⟩, ⟨1, "B", 1⟩, ⟨1, "B", 1⟩, ⟨1, "A", 1⟩] ∧
      eventLtb ⟨1, "A", 1⟩ ⟨1, "B", 1⟩ = true := by
  with_unfolding_all decide

set_option maxRecDepth 40000 in
/-- Counterexample to C5 as stated: for a single competitor with constant
item time 10 and duration 5, the events are emitted in the order
`(10, A, 1), (5, A, 0.5)`: both `elapsed_time` and the consumed count
strictly decrease. -/
theorem claim_C5_counterexample :
    runAcc [("A", constRate 10)] 5 1 = some [⟨10, "A", 1⟩, ⟨5, "A", 1/2⟩] ∧
      eventsOf "A" [⟨10, "A", 1⟩, ⟨5, "A", 1/2⟩] = [⟨10, "A", 1⟩, ⟨5, "A", 1/2⟩] ∧
      ¬ List.Chain' eventMono [⟨10, "A", 1⟩, ⟨5, "A", 1/2⟩] := by
  refine ⟨by with_unfolding_all decide, by with_unfolding_all decide, fun hcon => ?_⟩
  have h1 : (10 : ℚ) ≤ 5 := (List.chain'_cons.mp hcon).1.1
  norm_num at h1

/-- C5, amended: for every competitor (distinct names) whose item times are
strictly positive and whose first item fits within the duration, the events
of that competitor in emission order have non-decreasing `elapsed_time` and
non-decreasing consumed count, and the last of them has
`elapsed_time = duration` exactly. -/
theorem claim_C5_amended (comps : List (String × (ℕ → ℚ))) (d : ℚ) (fuel : ℕ)
    (nm : String) (f : ℕ → ℚ) (out : List Event)
    (hnd : (comps.map Prod.fst).Nodup) (hmem : (nm, f) ∈ comps)
    (hpos : ∀ k, 0 < f k) (h0 : f 0 ≤ d)
    (hrun : runAcc comps d fuel = some out) :
    List.Chain' eventMono (eventsOf nm out) ∧
      (eventsOf nm out).getLast?.map Event.elapsed_time = some d := by
  rcases runAcc_eventsOf comps d fuel nm f out hnd hmem hrun with ⟨hfil, last, hlast, hel⟩
  rw [hfil]
  refine ⟨compTrace_chain d f nm hpos fuel 0 0 (by simpa using h0), ?_⟩
  rw [hlast]
  simp [hel]

set_option maxRecDepth 40000 in
/-- Witness for the amended C5: one competitor with constant item time 1
and duration 3. -/
theorem claim_C5_amended_witness :
    List.Chain' eventMono
        (eventsOf "A" [⟨1, "A", 1⟩, ⟨2, "A", 2⟩, ⟨3, "A", 3⟩, ⟨3, "A", 3⟩]) ∧
      (eventsOf "A" [⟨1, "A", 1⟩, ⟨2, "A", 2⟩, ⟨3, "A", 3⟩, ⟨3, "A", 3⟩]).getLast?.map
          Event.elapsed_time = some 3 :=
  claim_C5_amended [("A", constRate 1)] 3 3 "A" (constRate 1)
    [⟨1, "A", 1⟩, ⟨2, "A", 2⟩, ⟨3, "A", 3⟩, ⟨3, "A", 3⟩]
    (by with_unfolding_all decide) (List.mem_singleton.mpr rfl)
    (fun k => by norm_num [constRate]) (by norm_num [constRate])
    (by with_unfolding_all decide)

/-- C10: with strictly positive item times and distinct names, every event
of a competitor after its very first one has `elapsed_time` at most the
duration: whole-item events at outer index `cnt ≥ 1` are protected by the
lookahead check of the previous round, and terminal events sit exactly at the
duration; only the first whole-item event (index 0) can exceed it. -/
theorem claim_C10_only_first_exceeds (comps : List (String × (ℕ → ℚ))) (d : ℚ)
    (fuel : ℕ) (nm : String) (f : ℕ → ℚ) (out : List Event)
    (hnd : (comps.map Prod.fst).Nodup) (hmem : (nm, f) ∈ comps)
    (hpos : ∀ k, 0 < f k) (hrun : runAcc comps d fuel = some out) :
    ∀ e ∈ (eventsOf nm out).tail, e.elapsed_time ≤ d := by
  rcases runAcc_eventsOf comps d fuel nm f out hnd hmem hrun with ⟨hfil, _⟩
  rw [hfil]
  exact compTrace_tail_le d f nm fuel 0 0

set_option maxRecDepth 40000 in
/-- Witness for C10: one competitor with constant item time 2 and duration
5; the second event of its trace is at elapsed time 4 ≤ 5. -/
theorem claim_C10_only_first_exceeds_witness :
    (⟨4, "A", 2⟩ : Event).elapsed_time ≤ 5 :=
  claim_C10_only_first_exceeds [("A", constRate 2)] 5 3 "A" (constRate 2)
    [⟨2, "A", 1⟩, ⟨4, "A", 2⟩, ⟨5, "A", 5/2⟩]
    (by with_unfolding_all decide) (List.mem_singleton.mpr rfl)
    (fun k => by norm_num [constRate]) (by with_unfolding_all decide)
    ⟨4, "A", 2⟩ (by with_unfolding_all decide)

/-- C9: `run()` never clears `event_list`.  A second call on the same
instance (whose retained, sorted list is `sortEvents out1`) appends a
complete second simulation, so its internal list holds `sortEvents out1 ++
out1`; after the final sort, and also after the output rounding, every event
occurs exactly twice as often as in the corresponding first-call list. -/
theorem claim_C9_second_run_duplicates (comps : List (String × (ℕ → ℚ))) (d : ℚ)
    (fuel : ℕ) (out1 : List Event) (h1 : runAcc comps d fuel = some out1) :
    runAccAgain (sortEvents out1) comps d fuel = some (sortEvents out1 ++ out1) ∧
      (∀ e : Event, (sortEvents (sortEvents out1 ++ out1)).count e =
        2 * (sortEvents out1).count e) ∧
      (∀ e : Event, (roundedEvents (sortEvents (sortEvents out1 ++ out1))).count e =
        2 * (roundedEvents (sortEvents out1)).count e) := by
  have hperm1 : (sortEvents out1).Perm out1 := sortEvents_perm out1
  have h1loop : runLoop d fuel 0 (initStates comps) [] = some out1 := h1
  refine ⟨?_, ?_, ?_⟩
  · rw [runAccAgain, runLoop_acc, h1loop]
    rfl
  · intro e
    rw [(sortEvents_perm (sortEvents out1 ++ out1)).count_eq, List.count_append,
      hperm1.count_eq]
    omega
  · intro e
    rw [roundedEvents, roundedEvents,
      ((sortEvents_perm (sortEvents out1 ++ out1)).map fun x => x.rounded 3).count_eq,
      List.map_append, List.count_append,
      ((hperm1.map fun x => x.rounded 3).count_eq)]
    omega

set_option maxRecDepth 40000 in
/-- Witness for C9: the single-competitor run of the C2 scenario, run a
second time on the same instance. -/
theorem claim_C9_second_run_duplicates_witness :
    runAccAgain (sortEvents [⟨10, "A", 1⟩, ⟨5, "A", 1/2⟩]) [("A", constRate 10)] 5 1 =
        some (sortEvents [⟨10, "A", 1⟩, ⟨5, "A", 1/2⟩] ++ [⟨10, "A", 1⟩, ⟨5, "A", 1/2⟩]) ∧
      (sortEvents (sortEvents [⟨10, "A", 1⟩, ⟨5, "A", 1/2⟩] ++
            [⟨10, "A", 1⟩, ⟨5, "A", 1/2⟩])).count ⟨5, "A", 1/2⟩ =
        2 * (sortEvents [⟨10, "A", 1⟩, ⟨5, "A", 1/2⟩]).count ⟨5, "A", 1/2⟩ := by
  have h := claim_C9_second_run_duplicates [("A", constRate 10)] 5 1
    [⟨10, "A", 1⟩, ⟨5, "A", 1/2⟩] (by with_unfolding_all decide)
  exact ⟨h.1, h.2.1 _⟩

set_option maxRecDepth 80000 in
set_option maxHeartbeats 800000 in
/-- Counterexample to C1 as stated: with Alice eating at constant item time
10 and Bob at constant item time 1 over duration 5, the first whole-item
event of Alice sits at elapsed time 10, beyond every terminal event, so the maximum
of the event order is not a terminal boundary event and `winner()` returns
"Alice", not the lexicographically greater "Bob". -/
theorem claim_C1_counterexample :
    winnerAfter [("Alice", constRate 10), ("Bob", constRate 1)] 5 5 = some "Alice" ∧
      "Alice" ≠ "Bob" := by
  with_unfolding_all decide

/-- C1, amended: when the first item of every competitor fits within the
duration (so that no whole-item event exceeds it), `winner()` after a
terminating `run()` returns the lexicographically greatest competitor name,
regardless of items consumed; the maximum event then sits at
`elapsed_time = duration`, a terminal boundary event.  In particular for
competitors named Alice and Bob the winner is Bob. -/
theorem claim_C1_amended (comps : List (String × (ℕ → ℚ))) (d : ℚ) (fuel : ℕ)
    (hne : comps ≠ []) (hnd : (comps.map Prod.fst).Nodup)
    (h0 : ∀ p ∈ comps, p.2 0 ≤ d)
    (hrun : (runAcc comps d fuel).isSome = true) :
    ∃ w, winnerAfter comps d fuel = some w ∧ w ∈ comps.map Prod.fst ∧
      ∀ nm ∈ comps.map Prod.fst, nm ≤ w := by
  obtain ⟨out, hout⟩ := Option.isSome_iff_exists.mp hrun
  have hle : ∀ e ∈ out, e.elapsed_time ≤ d := by
    intro e he
    rcases runLoop_names d fuel 0 (initStates comps) [] out hout e he with h | h
    · simp at h
    · rw [initStates_names] at h
      rcases List.mem_map.mp h with ⟨p, hp, hpe⟩
      rcases runAcc_eventsOf comps d fuel p.1 p.2 out hnd (by rwa [Prod.mk.eta]) hout
        with ⟨hfil, _⟩
      have hemem : e ∈ eventsOf p.1 out := by
        rw [eventsOf, List.mem_filter]
        refine ⟨he, ?_⟩
        rw [← hpe]
        exact beq_self_eq_true _
      rw [hfil] at hemem
      exact compTrace_elapsed_le d p.2 p.1 fuel 0 0 (by simpa using h0 p hp) e hemem
  have hterm : ∀ p ∈ comps, ∃ e ∈ out, e.name = p.1 ∧ e.elapsed_time = d := by
    intro p hp
    rcases runAcc_eventsOf comps d fuel p.1 p.2 out hnd (by rwa [Prod.mk.eta]) hout
      with ⟨hfil, last, hlast, hel⟩
    have hmem2 : last ∈ eventsOf p.1 out := by
      rw [hfil]
      exact List.mem_of_mem_getLast? (by simp [hlast])
    rw [eventsOf, List.mem_filter] at hmem2
    exact ⟨last, hmem2.1, by simpa using hmem2.2, hel⟩
  have hne2 : out ≠ [] := by
    rcases comps with _ | ⟨p, ps⟩
    · exact absurd rfl hne
    · rcases hterm p (List.mem_cons_self _ _) with ⟨e, he, _⟩
      exact List.ne_nil_of_mem he
  have hsne : sortEvents out ≠ [] := by
    intro hcon
    have hp := sortEvents_perm out
    rw [hcon] at hp
    exact hne2 hp.symm.eq_nil
  obtain ⟨m, hm⟩ := pyMax_isSome hsne
  have hspec := pyMax_spec hm
  have hmmem : m ∈ out := (sortEvents_perm out).mem_iff.mp hspec.1
  have hmname : m.name ∈ comps.map Prod.fst := by
    rcases runLoop_names d fuel 0 (initStates comps) [] out hout m hmmem with h | h
    · simp at h
    · rwa [initStates_names] at h
  have hwin : winnerAfter comps d fuel = some m.name := by
    rw [winnerAfter, runList]
    rw [show runAcc comps d fuel = some out from hout]
    simp [winnerOf, hm]
  refine ⟨m.name, hwin, hmname, ?_⟩
  intro nm hnm
  rcases List.mem_map.mp hnm with ⟨p, hp, rfl⟩
  rcases hterm p hp with ⟨e, he, hename, heel⟩
  have hes : e ∈ sortEvents out := (sortEvents_perm out).mem_iff.mpr he
  have hlt := hspec.2 e hes
  rw [eventLtb_eq_false_iff] at hlt
  have hmle : m.elapsed_time ≤ d := hle m hmmem
  rcases hlt with h | ⟨_, hn⟩
  · exfalso
    rw [heel] at h
    linarith
  · rw [hename] at hn
    exact hn

/-- Witness for the amended C1: Alice at constant item time 1 and Bob at
constant item time 2, duration 5 — the winner is Bob. -/
theorem claim_C1_amended_witness :
    winnerAfter [("Alice", constRate 1), ("Bob", constRate 2)] 5 5 = some "Bob" := by
  have h := claim_C1_amended [("Alice", constRate 1), ("Bob", constRate 2)] 5 5
    (List.cons_ne_nil _ _) (by with_unfolding_all decide)
    (by
      intro p hp
      rcases List.mem_cons.mp hp with rfl | hp2
      · norm_num [constRate]
      · rcases List.mem_singleton.mp hp2 with rfl
        norm_num [constRate])
    (by with_unfolding_all decide)
  rcases h with ⟨w, hw, hmem, hmax⟩
  have hb := hmax "Bob" (by with_unfolding_all decide)
  simp only [List.map_cons, List.map_nil] at hmem
  rcases List.mem_cons.mp hmem with rfl | hmem2
  · exact absurd hb (by with_unfolding_all decide)
  · rcases List.mem_singleton.mp hmem2 with rfl
    exact hw

end Hotdog
